import Mathlib

/-!
Verification of the smartdispatch core pipeline (smartdispatch/smartdispatch.py).

Strings are modelled as `List Char`.  Python built-ins used by the source
(slicing, `str.split`, `str.strip`, `str.replace`, `itertools.product`) are
embedded as executable Lean functions with the same semantics.
-/

namespace SmartDispatch

/-- Embedding of `itertools.product(*arguments)`: tuples in lexicographic
order over the index tuple, the last component varying fastest. -/
def pyProduct {α : Type} : List (List α) → List (List α)
  | [] => [[]]
  | l :: ls => l.flatMap (fun x => (pyProduct ls).map (fun t => x :: t))

/-- `get_commands_from_arguments(arguments)` from the source:
`["".join(argvalues) for argvalues in itertools.product(*arguments)]`. -/
def get_commands_from_arguments (arguments : List (List (List Char))) : List (List Char) :=
  (pyProduct arguments).map (fun argvalues => argvalues.flatten)

/-- Product of the value counts of all segments. -/
def prodLen {α : Type} (ls : List (List α)) : Nat := (ls.map List.length).prod

/-- Mixed-radix decomposition of a product index into one index per segment,
with the last segment varying fastest (the lexicographic rank decoding). -/
def decodeIdx {α : Type} : List (List α) → Nat → List Nat
  | [], _ => []
  | _ :: ls, i => i / prodLen ls :: decodeIdx ls (i % prodLen ls)

/-- Choose, from each segment, the value at the corresponding index. -/
def selectIdx : List (List (List Char)) → List Nat → List (List Char)
  | [], _ => []
  | _ :: _, [] => []
  | l :: ls, d :: ds => l.getD d [] :: selectIdx ls ds

theorem pyProduct_length {α : Type} (ls : List (List α)) :
    (pyProduct ls).length = prodLen ls := by
  induction ls with
  | nil => simp [pyProduct, prodLen]
  | cons l ls ih =>
    simp only [pyProduct, prodLen, List.map_cons, List.prod_cons]
    rw [List.length_flatMap]
    have h : (List.map (List.length ∘ fun x => List.map (fun t => x :: t) (pyProduct ls)) l)
        = List.replicate l.length (pyProduct ls).length := by
      simp [Function.comp_def, List.map_const]
    rw [h, List.sum_replicate, smul_eq_mul, ih, prodLen]

theorem flatMap_blocks_getD {α β : Type} (a : α) (b : β)
    (l : List α) (f : α → List β) (B : Nat)
    (hB : ∀ x, (f x).length = B) :
    ∀ i, i < l.length * B →
      (l.flatMap f).getD i b = (f (l.getD (i / B) a)).getD (i % B) b := by
  induction l with
  | nil => intro i hi; simp at hi
  | cons x xs ih =>
    intro i hi
    have hBpos : 0 < B := by
      rcases Nat.eq_zero_or_pos B with h0 | h0
      · subst h0; simp at hi
      · exact h0
    rw [List.flatMap_cons]
    by_cases hiB : i < B
    · rw [List.getD_append _ _ _ _ (by rw [hB x]; exact hiB)]
      rw [Nat.div_eq_of_lt hiB, Nat.mod_eq_of_lt hiB]
      simp
    · push_neg at hiB
      rw [List.getD_append_right _ _ _ _ (by rw [hB x]; exact hiB)]
      rw [hB x]
      have hi2 : i - B < xs.length * B := by
        have : (x :: xs).length * B = B + xs.length * B := by
          simp [List.length_cons]; ring
        omega
      rw [ih (i - B) hi2]
      have hdiv : i / B = (i - B) / B + 1 := by
        have := Nat.add_div_right (i - B) hBpos
        rw [Nat.sub_add_cancel hiB] at this
        omega
      have hmod : i % B = (i - B) % B := (Nat.mod_eq_sub_mod hiB)
      rw [hdiv, hmod]
      simp

theorem pyProduct_getD (args : List (List (List Char))) :
    ∀ i, i < prodLen args →
      (pyProduct args).getD i [] = selectIdx args (decodeIdx args i) := by
  induction args with
  | nil =>
    intro i hi
    have : i = 0 := by simpa [prodLen] using hi
    subst this
    simp [pyProduct, selectIdx, decodeIdx]
  | cons l ls ih =>
    intro i hi
    have hB : ∀ x : List Char, ((pyProduct ls).map fun t => x :: t).length = prodLen ls := by
      intro x; rw [List.length_map, pyProduct_length]
    have hlen : i < l.length * prodLen ls := by
      simpa [prodLen, List.map_cons, List.prod_cons] using hi
    have hBpos : 0 < prodLen ls := by
      rcases Nat.eq_zero_or_pos (prodLen ls) with h0 | h0
      · rw [h0] at hlen; simp at hlen
      · exact h0
    rw [pyProduct, flatMap_blocks_getD ([] : List Char) ([] : List (List Char))
      l _ (prodLen ls) hB i hlen]
    have hmodlt : i % prodLen ls < prodLen ls := Nat.mod_lt _ hBpos
    have hmap : ((pyProduct ls).map fun t => (l.getD (i / prodLen ls) []) :: t).getD
        (i % prodLen ls) [] =
        (l.getD (i / prodLen ls) []) :: ((pyProduct ls).getD (i % prodLen ls) []) := by
      have hlt : i % prodLen ls < (pyProduct ls).length := by
        rw [pyProduct_length]; exact hmodlt
      rw [List.getD_eq_getElem _ _ (by simpa using hlt), List.getElem_map,
        List.getD_eq_getElem _ _ hlt]
    rw [hmap, ih (i % prodLen ls) hmodlt]
    simp [decodeIdx, selectIdx]

/-- C1: `get_commands_from_arguments` returns one command per point of the
Cartesian product of the segments: the output length is the product of the
segments' value counts, and the command at product index `i` is the
separator-free concatenation, in segment order, of the values selected by the
mixed-radix decomposition of `i` (last segment fastest, i.e. lexicographic
order over the segment-index tuple). -/
theorem get_commands_from_arguments_spec (args : List (List (List Char))) :
    (get_commands_from_arguments args).length = prodLen args ∧
    (∀ i, i < prodLen args →
      (get_commands_from_arguments args).getD i [] =
        (selectIdx args (decodeIdx args i)).flatten) := by
  constructor
  · rw [get_commands_from_arguments, List.length_map, pyProduct_length]
  · intro i hi
    have hlt : i < (pyProduct args).length := by rw [pyProduct_length]; exact hi
    rw [get_commands_from_arguments,
      List.getD_eq_getElem _ _ (by simpa using hlt), List.getElem_map,
      ← List.getD_eq_getElem (pyProduct args) ([] : List (List Char)) hlt,
      pyProduct_getD args i hi]

/-- Witness for C1 at a concrete input: segments `[["a","b"], ["c"], ["d","e"]]`
give 4 commands and index 3 decodes to choices (1,0,1) giving "bce". -/
theorem get_commands_from_arguments_spec_witness :
    (3 < prodLen [[['a'], ['b']], [['c']], [['d'], ['e']]]) ∧
    (get_commands_from_arguments [[['a'], ['b']], [['c']], [['d'], ['e']]]).getD 3 [] =
      (selectIdx [[['a'], ['b']], [['c']], [['d'], ['e']]]
        (decodeIdx [[['a'], ['b']], [['c']], [['d'], ['e']]] 3)).flatten :=
  ⟨by decide, (get_commands_from_arguments_spec _).2 3 (by decide)⟩

/-! ## UID tag replacement (`replace_uid_tag`) -/

/-- The literal placeholder tag, the string "\x7bUID\x7d". -/
def uidTag : List Char := [Char.ofNat 123, 'U', 'I', 'D', Char.ofNat 125]

/-- Fuel-indexed embedding of one pass of Python `str.replace(old, new)`:
scan left to right, replace non-overlapping occurrences, resume right after
each replacement.  `fuel` only bounds the recursion; any `fuel ≥ s.length`
gives the replacement semantics. -/
def replaceAllF (tag rep : List Char) : Nat → List Char → List Char
  | _, [] => []
  | 0, s => s
  | fuel + 1, c :: rest =>
    if tag ≠ [] ∧ tag.isPrefixOf (c :: rest) then
      rep ++ replaceAllF tag rep fuel (rest.drop (tag.length - 1))
    else
      c :: replaceAllF tag rep fuel rest

/-- Python `s.replace(tag, rep)` (all occurrences). -/
def replaceAll (s tag rep : List Char) : List Char := replaceAllF tag rep s.length s

/-- The sixteen lowercase hexadecimal digit characters, 0-9 then a-f. -/
def hexCharList : List Char :=
  (List.range 10).map (fun n => Char.ofNat (48 + n)) ++
    (List.range 6).map (fun n => Char.ofNat (97 + n))

def hexDigit (n : Nat) : Char := hexCharList.getD (n % 16) '0'

def hashStep (h : Nat) (c : Char) : Nat := (h * 31 + c.toNat) % (2 ^ 64)

/-- Modelled from the spec: `utils.generate_uid_from_string` is not under
src/; §3 of the spec requires only a short deterministic token computed from
the command's full text via a stable hashing/digest function, whose text does
not contain the placeholder.  Modelled as a 64-bit polynomial hash of the text
rendered as 16 lowercase hexadecimal digits. -/
def generate_uid_from_string (s : List Char) : List Char :=
  (List.range 16).map (fun k => hexDigit (s.foldl hashStep 5381 / 16 ^ k))

/-- `replace_uid_tag(commands)` from the source: for each command, replace
every occurrence of the tag by the UID of that same command's text. -/
def replace_uid_tag (commands : List (List Char)) : List (List Char) :=
  commands.map (fun command => replaceAll command uidTag (generate_uid_from_string command))

theorem hexDigit_mem (n : Nat) : hexDigit n ∈ hexCharList := by
  have h : n % 16 < hexCharList.length := by
    have : n % 16 < 16 := Nat.mod_lt _ (by norm_num)
    simpa [hexCharList] using this
  rw [hexDigit, List.getD_eq_getElem _ _ h]
  exact List.getElem_mem h

theorem generate_uid_ne_nil (s : List Char) : generate_uid_from_string s ≠ [] := by
  simp [generate_uid_from_string, List.range_succ]

theorem generate_uid_mem_hex (s : List Char) :
    ∀ c ∈ generate_uid_from_string s, c ∈ hexCharList := by
  intro c hc
  rw [generate_uid_from_string, List.mem_map] at hc
  obtain ⟨k, _, rfl⟩ := hc
  exact hexDigit_mem _

theorem generate_uid_disjoint_tag (s : List Char) :
    ∀ c ∈ generate_uid_from_string s, c ∉ uidTag := by
  intro c hc
  have hhex : c ∈ hexCharList := generate_uid_mem_hex s c hc
  revert hhex
  have : ∀ d ∈ hexCharList, d ∉ uidTag := by decide
  intro hhex
  exact this c hhex

/-- If the pattern does not occur in `s`, the replacement pass is the
identity. -/
theorem replaceAllF_of_not_infix (tag rep : List Char) :
    ∀ fuel s, s.length ≤ fuel → ¬ tag <:+: s → replaceAllF tag rep fuel s = s := by
  intro fuel
  induction fuel with
  | zero =>
    intro s hs _
    have : s = [] := List.eq_nil_of_length_eq_zero (Nat.le_zero.mp hs)
    subst this; rfl
  | succ fuel ih =>
    intro s hs hocc
    match s with
    | [] => rfl
    | c :: rest =>
      have hcond : ¬ (tag ≠ [] ∧ tag.isPrefixOf (c :: rest)) := by
        rintro ⟨-, hpre⟩
        exact hocc (List.IsPrefix.isInfix (List.isPrefixOf_iff_prefix.mp hpre))
      rw [replaceAllF, if_neg hcond]
      have hrest : ¬ tag <:+: rest := fun h => hocc (List.infix_cons h)
      rw [ih rest (by simpa using hs) hrest]

/-- Chars of the replacement never re-create the pattern across the border of
a replacement block: a nonempty list of pattern characters that is a
`isPrefixOf`-style front of the output is already a front of the input. -/
theorem replaceAllF_front_reflect (tag rep : List Char)
    (hrep : rep ≠ []) (hdisj : ∀ c ∈ rep, c ∉ tag) :
    ∀ fuel s t, s.length ≤ fuel → t ≠ [] → (∀ c ∈ t, c ∈ tag) →
      t <+: replaceAllF tag rep fuel s → t <+: s := by
  intro fuel
  induction fuel with
  | zero =>
    intro s t hs _ _ hpre
    have : s = [] := List.eq_nil_of_length_eq_zero (Nat.le_zero.mp hs)
    subst this; simpa [replaceAllF] using hpre
  | succ fuel ih =>
    intro s t hs ht htc hpre
    obtain ⟨t0, t1, rfl⟩ := List.exists_cons_of_ne_nil ht
    match s with
    | [] => simp [replaceAllF] at hpre
    | c :: rest =>
      by_cases hcond : tag ≠ [] ∧ tag.isPrefixOf (c :: rest)
      · rw [replaceAllF, if_pos hcond] at hpre
        obtain ⟨r0, r1, hr⟩ := List.exists_cons_of_ne_nil hrep
        exfalso
        have ht0 : r0 = t0 := by
          obtain ⟨u, hu⟩ := hpre
          rw [hr] at hu
          simpa using congrArg (fun l => l.head?) hu.symm
        have hmem : r0 ∈ tag := by rw [ht0]; exact htc t0 (by simp)
        exact hdisj r0 (by rw [hr]; simp) hmem
      · rw [replaceAllF, if_neg hcond] at hpre
        rw [List.cons_prefix_cons] at hpre
        obtain ⟨rfl, hpre1⟩ := hpre
        rcases eq_or_ne t1 ([] : List Char) with h1 | h1
        · subst h1
          exact List.cons_prefix_cons.mpr ⟨rfl, List.nil_prefix⟩
        · have : t1 <+: rest := ih rest t1 (by simpa using hs) h1
            (fun d hd => htc d (by simp [hd])) hpre1
          exact List.cons_prefix_cons.mpr ⟨rfl, this⟩

/-- Pattern chars never appear in the replacement, so the pattern cannot
occur inside any block contributed by `rep`. -/
theorem not_infix_append_of_disjoint (tag : List Char) (htag : tag ≠ []) :
    ∀ (r X : List Char), (∀ c ∈ r, c ∉ tag) → ¬ tag <:+: X → ¬ tag <:+: (r ++ X) := by
  intro r
  induction r with
  | nil => intro X _ hX; simpa using hX
  | cons c r2 ih =>
    intro X hdisj hX hocc
    rw [List.cons_append, List.infix_cons_iff] at hocc
    rcases hocc with hpre | hinf
    · obtain ⟨t0, t1, hteq⟩ := List.exists_cons_of_ne_nil htag
      have ht0 : c = t0 := by
        obtain ⟨u, hu⟩ := hpre
        rw [hteq] at hu
        simpa using congrArg (fun l => l.head?) hu.symm
      exact hdisj c (by simp) (by rw [hteq, ht0]; simp)
    · exact ih X (fun d hd => hdisj d (by simp [hd])) hX hinf

/-- After one replacement pass, the pattern no longer occurs in the output. -/
theorem replaceAllF_no_tag (tag rep : List Char)
    (htag : tag ≠ []) (hrep : rep ≠ []) (hdisj : ∀ c ∈ rep, c ∉ tag) :
    ∀ fuel s, s.length ≤ fuel → ¬ tag <:+: replaceAllF tag rep fuel s := by
  intro fuel
  induction fuel with
  | zero =>
    intro s hs
    have : s = [] := List.eq_nil_of_length_eq_zero (Nat.le_zero.mp hs)
    subst this
    simpa [replaceAllF] using htag
  | succ fuel ih =>
    intro s hs
    match s with
    | [] => simpa [replaceAllF] using htag
    | c :: rest =>
      have hrestfuel : rest.length ≤ fuel := by simpa using hs
      by_cases hcond : tag ≠ [] ∧ tag.isPrefixOf (c :: rest)
      · rw [replaceAllF, if_pos hcond]
        have hdl : (rest.drop (tag.length - 1)).length ≤ fuel := by
          rw [List.length_drop]; omega
        exact not_infix_append_of_disjoint tag htag rep _ hdisj (ih _ hdl)
      · rw [replaceAllF, if_neg hcond]
        intro hocc
        rw [List.infix_cons_iff] at hocc
        rcases hocc with hpre | hinf
        · obtain ⟨t0, t1, hteq⟩ := List.exists_cons_of_ne_nil htag
          rw [hteq, List.cons_prefix_cons] at hpre
          obtain ⟨rfl, hpre1⟩ := hpre
          rcases eq_or_ne t1 ([] : List Char) with h1 | h1
          · refine hcond ⟨htag, List.isPrefixOf_iff_prefix.mpr ?_⟩
            rw [hteq, h1]
            exact List.cons_prefix_cons.mpr ⟨rfl, List.nil_prefix⟩
          · rw [← hteq] at hpre1
            have ht1rest : t1 <+: rest := replaceAllF_front_reflect tag rep hrep hdisj
              fuel rest t1 hrestfuel h1
              (fun d hd => by rw [hteq]; simp [hd]) hpre1
            refine hcond ⟨htag, List.isPrefixOf_iff_prefix.mpr ?_⟩
            rw [hteq]
            exact List.cons_prefix_cons.mpr ⟨rfl, ht1rest⟩
        · exact ih rest hrestfuel hinf

theorem replaceAll_of_not_infix (s tag rep : List Char) (h : ¬ tag <:+: s) :
    replaceAll s tag rep = s :=
  replaceAllF_of_not_infix tag rep s.length s (Nat.le_refl _) h

theorem replaceAll_no_tag (s : List Char) :
    ¬ uidTag <:+: replaceAll s uidTag (generate_uid_from_string s) :=
  replaceAllF_no_tag uidTag (generate_uid_from_string s) (by decide)
    (generate_uid_ne_nil s) (generate_uid_disjoint_tag s)
    s.length s (Nat.le_refl _)

/-- C4: `replace_uid_tag` preserves list length and order; the command at
each position is the original command with every occurrence of the tag
replaced by the UID of that command's own original full text; commands not
containing the tag are unchanged. -/
theorem replace_uid_tag_spec (commands : List (List Char)) :
    (replace_uid_tag commands).length = commands.length ∧
    (∀ i, i < commands.length →
      (replace_uid_tag commands).getD i [] =
        replaceAll (commands.getD i []) uidTag
          (generate_uid_from_string (commands.getD i []))) ∧
    (∀ i, i < commands.length → ¬ uidTag <:+: commands.getD i [] →
      (replace_uid_tag commands).getD i [] = commands.getD i []) := by
  refine ⟨by simp [replace_uid_tag], ?_, ?_⟩
  · intro i hi
    rw [replace_uid_tag, List.getD_eq_getElem _ _ (by simpa using hi),
      List.getElem_map, List.getD_eq_getElem _ _ hi]
  · intro i hi hocc
    rw [List.getD_eq_getElem _ _ hi] at hocc
    rw [replace_uid_tag, List.getD_eq_getElem _ _ (by simpa using hi),
      List.getElem_map, List.getD_eq_getElem _ _ hi]
    exact replaceAll_of_not_infix _ _ _ hocc

/-- Witness for C4 at a concrete input: commands `["ab\x7bUID\x7dc", "plain"]`. -/
theorem replace_uid_tag_spec_witness :
    (1 < ([['a', 'b', Char.ofNat 123, 'U', 'I', 'D', Char.ofNat 125, 'c'],
        ['p', 'l', 'a', 'i', 'n']] : List (List Char)).length) ∧
    ¬ uidTag <:+: (([['a', 'b', Char.ofNat 123, 'U', 'I', 'D', Char.ofNat 125, 'c'],
        ['p', 'l', 'a', 'i', 'n']] : List (List Char)).getD 1 []) ∧
    (replace_uid_tag [['a', 'b', Char.ofNat 123, 'U', 'I', 'D', Char.ofNat 125, 'c'],
        ['p', 'l', 'a', 'i', 'n']]).getD 1 []
      = ([['a', 'b', Char.ofNat 123, 'U', 'I', 'D', Char.ofNat 125, 'c'],
        ['p', 'l', 'a', 'i', 'n']] : List (List Char)).getD 1 [] :=
  ⟨by decide, by decide,
    (replace_uid_tag_spec _).2.2 1 (by decide) (by decide)⟩

/-- C5: `replace_uid_tag` is idempotent: after one pass no occurrence of the
tag remains (the UID text contains no tag character), so a second pass leaves
every command unchanged. -/
theorem replace_uid_tag_idempotent (commands : List (List Char)) :
    replace_uid_tag (replace_uid_tag commands) = replace_uid_tag commands := by
  rw [replace_uid_tag, replace_uid_tag, List.map_map]
  apply List.map_congr_left
  intro c hc
  simp only [Function.comp_apply]
  exact replaceAll_of_not_infix _ _ _ (replaceAll_no_tag c)

/-! ## Name generation -/

/-- Python whitespace predicate (str.split / str.strip). -/
def pyIsSpace (c : Char) : Bool :=
  c.toNat = 32 || (9 ≤ c.toNat && c.toNat ≤ 13)

/-- Python slicing `s[k:]` for a possibly negative start index. -/
def pySliceFrom (k : Int) (s : List Char) : List Char :=
  if k < 0 then s.drop (s.length - (-k).toNat) else s.drop k.toNat

/-- The shared trimming rule of both name generators in the source:
`m = min(-max_length, max_length)` followed by the slice `s[m:]`; `none` is
Python `None` (no trimming). -/
def pyTrim (m : Option Int) (s : List Char) : List Char :=
  match m with
  | none => s
  | some m => pySliceFrom (min (-m) m) s

/-- Python `str.split()` with no separator: split on whitespace runs,
producing no empty tokens (accumulator form). -/
def splitWsAux : List Char → List Char → List (List Char)
  | [], acc => if acc = [] then [] else [acc.reverse]
  | c :: rest, acc =>
    if pyIsSpace c then
      if acc = [] then splitWsAux rest [] else acc.reverse :: splitWsAux rest []
    else splitWsAux rest (c :: acc)

def pySplitWs (s : List Char) : List (List Char) := splitWsAux s []

def slugChar (c : Char) : Bool := c.isAlphanum || ['_', '-', '.'].contains c

/-- Modelled from the spec: `utils.slugify` is not under src/; §4.5 requires
only a deterministic map onto characters safe for filenames/identifiers
(letters, digits, limited punctuation).  Modelled as keeping letters, digits,
dot, dash and underscore and dropping every other character. -/
def slugify (s : List Char) : List Char := s.filter slugChar

/-- `generate_name_from_command(command, max_length_arg, max_length)` from the
source: split on whitespace, slugify and trim each token, join with an
underscore, trim the result. -/
def generate_name_from_command (command : List Char)
    (max_length_arg max_length : Option Int) : List Char :=
  pyTrim max_length
    (List.intercalate ['_']
      ((pySplitWs command).map (fun argvalue => pyTrim max_length_arg (slugify argvalue))))

/-- Modelled from the spec/stdlib: the `datetime.now().strftime(...)` naming
moment; an abstract instant rendered as its decimal digits plus a trailing
underscore. -/
def fmtTime (t : Nat) : List Char := Nat.toDigits 10 t ++ ['_']

/-- The per-segment label of `generate_name_from_arguments`: the slugified,
trimmed first value, plus a dash and the slugified, trimmed last value when
the segment has more than one value; `none` when the segment is empty (the
source would raise IndexError on `argvalues[0]`). -/
def nameOfSegment (max_length_arg : Option Int) (argvalues : List (List Char)) :
    Option (List Char) :=
  match argvalues.map slugify with
  | [] => none
  | v :: vs =>
    some (pyTrim max_length_arg v ++
      (if vs = [] then [] else '-' :: pyTrim max_length_arg (vs.getLastD v)))

/-- `generate_name_from_arguments(arguments, max_length_arg, max_length,
prefix=datetime.now().strftime(...))` from the source.  `_callTime` is the
wall-clock instant of the invocation and `defTime` the instant the module was
loaded: Python evaluates the default value of the last parameter once, at
function definition time, so when the caller omits the argument the body uses
`fmtTime defTime` and never consults the invocation instant. -/
def generate_name_from_arguments (_callTime defTime : Nat)
    (arguments : List (List (List Char)))
    (max_length_arg max_length : Option Int)
    (pfx : Option (List Char)) : Option (List Char) :=
  (arguments.mapM (nameOfSegment max_length_arg)).map
    (fun parts =>
      pfx.getD (fmtTime defTime) ++ pyTrim max_length (List.intercalate ['_'] parts))

/-- C6 counterexample: with `max_length_arg = -3` the shared trim rule keeps
the trailing three characters "cde" of "abcde", not the leading three "abc"
that the claim states for negative values. -/
theorem pyTrim_neg_keeps_tail :
    pyTrim (some (-3)) ['a', 'b', 'c', 'd', 'e'] = ['c', 'd', 'e'] ∧
    pyTrim (some (-3)) ['a', 'b', 'c', 'd', 'e'] ≠ ['a', 'b', 'c'] := by
  constructor
  · decide
  · decide

/-- C6 amended: `min(-m, m)` collapses both signs to a negative slice index,
so for every nonzero `m` the rule keeps the trailing `|m|` characters (the
whole token when `|m| ≥  length`); `m = 0` and `None` leave the token
unlimited.  The same rule is applied to the final `max_length` trim. -/
theorem pyTrim_spec (s : List Char) (m : Int) :
    (m ≠ 0 → pyTrim (some m) s = s.drop (s.length - m.natAbs)) ∧
    pyTrim (some 0) s = s ∧
    pyTrim none s = s := by
  refine ⟨?_, ?_, rfl⟩
  · intro hm
    rcases lt_or_gt_of_ne hm with hneg | hpos
    · rw [pyTrim, min_eq_right (by omega : m ≤ -m), pySliceFrom, if_pos hneg]
      congr 1
      omega
    · rw [pyTrim, min_eq_left (by omega : -m ≤ m), pySliceFrom, if_pos (by omega : -m < 0)]
      congr 1
      omega
  · rw [pyTrim]
    norm_num [pySliceFrom]

/-- Witness for C6 (amended) at `m = -3`, token "abcde". -/
theorem pyTrim_spec_witness :
    ((-3 : Int) ≠ 0) ∧
    pyTrim (some (-3)) ['a', 'b', 'c', 'd', 'e'] =
      (['a', 'b', 'c', 'd', 'e'] : List Char).drop
        ((['a', 'b', 'c', 'd', 'e'] : List Char).length - (-3 : Int).natAbs) :=
  ⟨by decide, (pyTrim_spec ['a', 'b', 'c', 'd', 'e'] (-3)).1 (by decide)⟩

/-- C7 (code defect): the timestamp default of `generate_name_from_arguments`
was bound once at definition time, so with the naming prefix omitted the
result is independent of the invocation instant: two calls made at different
times produce identical names, contrary to the per-call recomputation the
spec requires. -/
theorem generate_name_from_arguments_stale_default (t1 t2 defT : Nat)
    (args : List (List (List Char))) (maxA maxL : Option Int) :
    generate_name_from_arguments t1 defT args maxA maxL none =
      generate_name_from_arguments t2 defT args maxA maxL none := rfl

/-- C8 counterexample: on an empty command and on an empty segment list both
name generators return a name (the empty name, resp. the bare timestamp
name) instead of failing: the source has no failure path for empty input. -/
theorem generate_name_empty_input :
    generate_name_from_command [] none none = [] ∧
    generate_name_from_arguments 0 0 [] none none none = some (fmtTime 0) := by
  constructor
  · decide
  · decide

/-- C8 amended: given zero tokens `generate_name_from_command` returns the
empty name, and given zero segments `generate_name_from_arguments` returns
just the (given or definition-time default) prefix; no error is raised. -/
theorem generate_name_empty_spec (t1 t2 : Nat) (maxA maxL : Option Int) (p : List Char) :
    generate_name_from_command [] maxA maxL = [] ∧
    generate_name_from_arguments t1 t2 [] maxA maxL none = some (fmtTime t2) ∧
    generate_name_from_arguments t1 t2 [] maxA maxL (some p) = some p := by
  have htrim : ∀ m : Option Int, pyTrim m [] = [] := by
    intro m
    cases m with
    | none => rfl
    | some m => simp [pyTrim, pySliceFrom]
  have hmapM : (([] : List (List (List Char))).mapM (nameOfSegment maxA)) = some [] := rfl
  refine ⟨?_, ?_, ?_⟩
  · rw [generate_name_from_command]
    simp [pySplitWs, splitWsAux, List.intercalate, htrim]
  · rw [generate_name_from_arguments, hmapM]
    simp [List.intercalate, htrim]
  · rw [generate_name_from_arguments, hmapM]
    simp [List.intercalate, htrim]

/-- C10 counterexample: `generate_name_from_command("run_alpha_beta",
max_length_arg = 3)` returns "eta" — the trailing three characters of the
whole (single-token) command — not the per-underscore-chunk trim
"run_pha_eta" described by the claim. -/
theorem generate_name_underscore_example :
    generate_name_from_command "run_alpha_beta".toList (some 3) none = "eta".toList ∧
    "eta".toList ≠ "run_pha_eta".toList := by
  constructor
  · decide
  · decide

/-- C10 amended: the source tokenizes on whitespace, so "run_alpha_beta" is a
single token; the `max_length_arg = 3` trim keeps the trailing three
characters of the whole slugified token, yielding "eta". -/
theorem generate_name_underscore_example_spec :
    generate_name_from_command "run_alpha_beta".toList (some 3) none =
      pyTrim (some 3) (slugify "run_alpha_beta".toList) := by
  decide

/-! ## Reading commands from a file -/

/-- Python `str.strip()` with no arguments: remove leading and trailing
whitespace. -/
def pyStrip (s : List Char) : List Char :=
  List.rdropWhile pyIsSpace (s.dropWhile pyIsSpace)

/-- `get_commands_from_file`: `fileobj.read().strip().split('\n')`, where the
file's whole text is the function's input and `split('\n')` keeps interior
empty parts. -/
def get_commands_from_file (text : List Char) : List (List Char) :=
  (pyStrip text).splitOn '\n'

/-- C9 counterexample: lines are not individually trimmed ("a " keeps its
trailing space) and an interior blank line yields an empty command. -/
theorem get_commands_from_file_not_trimmed :
    get_commands_from_file "a \nb".toList = ["a ".toList, "b".toList] ∧
    "a ".toList ≠ pyStrip "a ".toList ∧
    get_commands_from_file "a\n\nb".toList = ["a".toList, [], "b".toList] := by
  refine ⟨by decide, by decide, by decide⟩

/-- C9 amended: `get_commands_from_file` yields one command per line of the
text stripped of leading and trailing whitespace: appending trailing
whitespace (hence a trailing newline or blank trailing lines) does not change
the result, and joining the commands with newlines reconstructs the stripped
text exactly — lines are kept verbatim (no per-line trimming, interior blank
lines yield empty commands, no grammar processing). -/
theorem get_commands_from_file_spec (t : List Char) (c : Char)
    (hc : pyIsSpace c = true) :
    get_commands_from_file (t ++ [c]) = get_commands_from_file t ∧
    List.intercalate ['\n'] (get_commands_from_file t) = pyStrip t := by
  constructor
  · rw [get_commands_from_file, get_commands_from_file]
    congr 1
    rw [pyStrip, pyStrip, List.dropWhile_append]
    by_cases hemp : (t.dropWhile pyIsSpace).isEmpty
    · rw [if_pos hemp]
      rw [List.isEmpty_iff] at hemp
      rw [hemp, List.rdropWhile_nil]
      simp [List.dropWhile, hc, List.rdropWhile_nil]
    · rw [if_neg hemp]
      exact List.rdropWhile_concat_pos _ _ _ hc
  · rw [get_commands_from_file]
    exact List.intercalate_splitOn (pyStrip t) '\n'

/-- Witness for C9 (amended) at text "a \nb" with a trailing space. -/
theorem get_commands_from_file_spec_witness :
    pyIsSpace ' ' = true ∧
    get_commands_from_file ("a \nb".toList ++ [' ']) = get_commands_from_file "a \nb".toList :=
  ⟨by decide, (get_commands_from_file_spec "a \nb".toList ' ' (by decide)).1⟩

/-! ## Unfolding folded arguments: the segment-emission loop -/

/-- Python slicing `text[a:b]` for nonnegative indices (clamped). -/
def pySlice (a b : Nat) (s : List Char) : List Char := (s.take b).drop a

def hexVal (c : Char) : Nat :=
  if c.isDigit then c.toNat - 48
  else if 'a' ≤ c ∧ c ≤ 'f' then c.toNat - 87
  else c.toNat - 55

def isHexDig (c : Char) : Bool :=
  c.isDigit || ('a' ≤ c && c ≤ 'f') || ('A' ≤ c && c ≤ 'F')

/-- Modelled from the spec: `utils.hex2str` is not under src/; §3 and §9
require the inverse of the reversible escaping applied before scanning.
Modelled as decoding every "\xHH" hex escape back to its character. -/
def hex2str : List Char → List Char
  | [] => []
  | '\\' :: 'x' :: h1 :: h2 :: rest =>
    if isHexDig h1 ∧ isHexDig h2 then
      Char.ofNat (16 * hexVal h1 + hexVal h2) :: hex2str rest
    else '\\' :: 'x' :: hex2str (h1 :: h2 :: rest)
  | c :: rest => c :: hex2str rest

/-- One master-regex match inside `unfold_arguments`: its span in the escaped
text, and the value list produced by the matched variant's `unfold` on the
captured content (`re.finditer` and the variant classes live outside src/, so
the match stream is an input of the embedded loop). -/
structure FoldMatch where
  mstart : Nat
  mend : Nat
  values : List (List Char)

/-- A default match for positional access. -/
def dMatch : FoldMatch := ⟨0, 0, []⟩

/-- The segment-emission loop of `unfold_arguments` (source lines 146–160):
a singleton Literal segment `[text[pos:match.start()]]` before each match,
the match's unfolded values, and the trailing `[text[pos:]]`, always
appended. -/
def unfoldScan (text : List Char) : Nat → List FoldMatch → List (List (List Char))
  | pos, [] => [[pySlice pos text.length text]]
  | pos, m :: ms => [pySlice pos m.mstart text] :: m.values :: unfoldScan text m.mend ms

/-- `unfold_arguments` after the match stream is fixed: run the loop from
position 0, then map `hex2str` over every value of every segment (source
line 161). -/
def unfold_arguments (text : List Char) (ms : List FoldMatch) : List (List (List Char)) :=
  (unfoldScan text 0 ms).map (fun argvalues => argvalues.map hex2str)

/-- End of the previous match before match `i` (or the scan start). -/
def prevEndFrom (pos : Nat) (ms : List FoldMatch) (i : Nat) : Nat :=
  if i = 0 then pos else (ms.getD (i - 1) dMatch).mend

theorem unfoldScan_length (text : List Char) :
    ∀ ms pos, (unfoldScan text pos ms).length = 2 * ms.length + 1 := by
  intro ms
  induction ms with
  | nil => intro pos; rfl
  | cons m ms ih =>
    intro pos
    simp only [unfoldScan, List.length_cons, ih m.mend, List.length_cons]
    ring

theorem unfoldScan_getD (text : List Char) :
    ∀ ms pos i, i < ms.length →
      (unfoldScan text pos ms).getD (2 * i) [] =
        [pySlice (prevEndFrom pos ms i) ((ms.getD i dMatch).mstart) text] ∧
      (unfoldScan text pos ms).getD (2 * i + 1) [] = (ms.getD i dMatch).values := by
  intro ms
  induction ms with
  | nil => intro pos i hi; simp at hi
  | cons m ms ih =>
    intro pos i hi
    match i with
    | 0 => simp [unfoldScan, prevEndFrom]
    | j + 1 =>
      have hj : j < ms.length := by simpa using hi
      have h2 : 2 * (j + 1) = (2 * j + 1) + 1 := by ring
      rw [h2]
      simp only [unfoldScan, List.getD_cons_succ]
      have := ih m.mend j hj
      refine ⟨?_, this.2⟩
      rw [this.1]
      congr 2
      match j with
      | 0 => simp [prevEndFrom]
      | k + 1 => simp [prevEndFrom]

theorem unfoldScan_getLast (text : List Char) :
    ∀ ms pos, (unfoldScan text pos ms).getLast? =
      some [pySlice (prevEndFrom pos ms ms.length) text.length text] := by
  intro ms
  induction ms with
  | nil => intro pos; simp [unfoldScan, prevEndFrom]
  | cons m ms ih =>
    intro pos
    have hne : unfoldScan text m.mend ms ≠ [] := by
      intro h
      have := unfoldScan_length text ms m.mend
      rw [h] at this
      simp at this
    obtain ⟨y, l2, hy⟩ := List.exists_cons_of_ne_nil hne
    rw [unfoldScan, hy, List.getLast?_cons_cons, List.getLast?_cons_cons, ← hy, ih m.mend]
    congr 2
    match hms : ms with
    | [] => simp [prevEndFrom]
    | m2 :: ms2 => simp [prevEndFrom]

/-- C2: the output of the unfolding loop is never empty, has odd length
`2·k + 1` for `k` matches, and alternates Literal and Folded segments: the
segment before match `i` is the singleton Literal holding the decoded text
strictly between the end of the previous match (or start of text) and the
start of match `i`, the segment after it is match `i`'s unfolded (decoded)
values, and the final segment is the singleton Literal of the decoded
remaining text, emitted even when empty — so the sequence begins and ends
with a singleton Literal. -/
theorem unfold_arguments_alternation (text : List Char) (ms : List FoldMatch) :
    (unfold_arguments text ms).length = 2 * ms.length + 1 ∧
    unfold_arguments text ms ≠ [] ∧
    (∀ i, i < ms.length →
      (unfold_arguments text ms).getD (2 * i) [] =
        [hex2str (pySlice (prevEndFrom 0 ms i) ((ms.getD i dMatch).mstart) text)] ∧
      (unfold_arguments text ms).getD (2 * i + 1) [] =
        ((ms.getD i dMatch).values).map hex2str) ∧
    (unfold_arguments text ms).getLast? =
      some [hex2str (pySlice (prevEndFrom 0 ms ms.length) text.length text)] := by
  have hlen : (unfold_arguments text ms).length = 2 * ms.length + 1 := by
    rw [unfold_arguments, List.length_map, unfoldScan_length]
  have hgetD : ∀ n, n < (unfoldScan text 0 ms).length →
      (unfold_arguments text ms).getD n [] =
        ((unfoldScan text 0 ms).getD n []).map hex2str := by
    intro n hn
    rw [unfold_arguments, List.getD_eq_getElem _ _ (by simpa using hn),
      List.getElem_map, List.getD_eq_getElem _ _ hn]
  refine ⟨hlen, ?_, ?_, ?_⟩
  · intro h
    rw [h] at hlen
    simp at hlen
  · intro i hi
    have hL := unfoldScan_length text ms 0
    have hb1 : 2 * i < (unfoldScan text 0 ms).length := by rw [hL]; omega
    have hb2 : 2 * i + 1 < (unfoldScan text 0 ms).length := by rw [hL]; omega
    obtain ⟨h1, h2⟩ := unfoldScan_getD text ms 0 i hi
    constructor
    · rw [hgetD _ hb1, h1]; rfl
    · rw [hgetD _ hb2, h2]
  · rw [unfold_arguments, List.getLast?_map, unfoldScan_getLast]
    rfl

/-- Witness for C2 at text "ab[c d]e" with one match spanning positions
2–7 that unfolds to values "c", "d". -/
theorem unfold_arguments_alternation_witness :
    (0 < ([⟨2, 7, [['c'], ['d']]⟩] : List FoldMatch).length) ∧
    (unfold_arguments "ab[c d]e".toList [⟨2, 7, [['c'], ['d']]⟩]).getD 0 [] =
      [hex2str (pySlice (prevEndFrom 0 [⟨2, 7, [['c'], ['d']]⟩] 0)
        ((([⟨2, 7, [['c'], ['d']]⟩] : List FoldMatch).getD 0 dMatch).mstart) "ab[c d]e".toList)] ∧
    (unfold_arguments "ab[c d]e".toList [⟨2, 7, [['c'], ['d']]⟩]).getD 1 [] =
      ((([⟨2, 7, [['c'], ['d']]⟩] : List FoldMatch).getD 0 dMatch).values).map hex2str :=
  ⟨by decide,
    ((unfold_arguments_alternation "ab[c d]e".toList [⟨2, 7, [['c'], ['d']]⟩]).2.2.1 0
      (by decide)).1,
    ((unfold_arguments_alternation "ab[c d]e".toList [⟨2, 7, [['c'], ['d']]⟩]).2.2.1 0
      (by decide)).2⟩

/-! ## The folding grammar and the left-to-right match scan -/

/-- Which grammar variant matched, in the order of the source's argument
list `[RangeFoldedArgument(), EnumerationFoldedArgument()]`. -/
inductive MKind where
  | range
  | enum
deriving DecidableEq

/-- Consume one expected character. -/
def expectChar (c : Char) (l : List Char) : Option (List Char) :=
  match l with
  | [] => none
  | d :: r => if d = c then some r else none

/-- Count of leading decimal digits, with the remaining text. -/
def countDigits : List Char → Nat × List Char
  | [] => (0, [])
  | c :: r =>
    if c.isDigit then ((countDigits r).1 + 1, (countDigits r).2) else (0, c :: r)

/-- At least one decimal digit. -/
def digits1 (l : List Char) : Option (Nat × List Char) :=
  if (countDigits l).1 = 0 then none else some (countDigits l)

/-- An integer field: optional minus sign then digits. -/
def intTokLen (l : List Char) : Option (Nat × List Char) :=
  match l with
  | [] => none
  | c :: r =>
    if c = '-' then (digits1 r).map (fun p => (p.1 + 1, p.2))
    else digits1 (c :: r)

/-- Modelled from the spec: the Range variant's pattern "[start:end]" or
"[start:end:step]" with integer fields (the regexes of
smartdispatch/argument.py are not under src/).  Returns the length of the
match starting at the head of `l`. -/
def rangeLen (l : List Char) : Option Nat :=
  (expectChar '[' l).bind fun r1 =>
  (intTokLen r1).bind fun p1 =>
  (expectChar ':' p1.2).bind fun r2 =>
  (intTokLen r2).bind fun p2 =>
  match expectChar ']' p2.2 with
  | some _ => some (p1.1 + p2.1 + 3)
  | none =>
    (expectChar ':' p2.2).bind fun r3 =>
    (intTokLen r3).bind fun p3 =>
    (expectChar ']' p3.2).map fun _ => p1.1 + p2.1 + p3.1 + 4

/-- Count of leading characters that are not brackets. -/
def countNotBr : List Char → Nat × List Char
  | [] => (0, [])
  | c :: r =>
    if c = '[' ∨ c = ']' then (0, c :: r)
    else ((countNotBr r).1 + 1, (countNotBr r).2)

/-- Modelled from the spec: the Enumeration variant's pattern
"[item1 item2 ... itemN]" — a bracket-delimited run of non-bracket
characters.  Returns the length of the match starting at the head of `l`. -/
def enumLen (l : List Char) : Option Nat :=
  (expectChar '[' l).bind fun r1 =>
  (expectChar ']' (countNotBr r1).2).map fun _ => (countNotBr r1).1 + 2

/-- End position of a Range match starting at position `i`, if any. -/
def rangeMatchAt (s : List Char) (i : Nat) : Option Nat :=
  (rangeLen (s.drop i)).map (fun n => i + n)

/-- End position of an Enumeration match starting at position `i`, if any. -/
def enumMatchAt (s : List Char) (i : Nat) : Option Nat :=
  (enumLen (s.drop i)).map (fun n => i + n)

/-- The master pattern at one position: the variants are tried in the order
of the source's argument list — Range first, Enumeration second — mirroring
the left-alternative preference of the regex alternation
`(?P<range>…)|(?P<enum>…)`. -/
def matchAt (s : List Char) (i : Nat) : Option (MKind × Nat) :=
  match rangeMatchAt s i with
  | some e => some (MKind.range, e)
  | none =>
    match enumMatchAt s i with
    | some e => some (MKind.enum, e)
    | none => none

/-- Modelled from the spec: the single left-to-right scan of `re.finditer`
over the master pattern: at each position try the master pattern; on a match
record it and resume at its end (never inside consumed text), otherwise
advance one position.  Fuel-indexed; any `fuel ≥ s.length - i` gives the scan
semantics. -/
def scanF (s : List Char) : Nat → Nat → List (MKind × Nat × Nat)
  | 0, _ => []
  | fuel + 1, i =>
    if i < s.length then
      match matchAt s i with
      | some (k, e) => (k, i, e) :: scanF s fuel (max e (i + 1))
      | none => scanF s fuel (i + 1)
    else []

/-- All matches of the combined grammar in `s`, in scan order. -/
def scanMatches (s : List Char) : List (MKind × Nat × Nat) := scanF s s.length 0

/-- Default triple for positional access. -/
def dM : MKind × Nat × Nat := (MKind.range, 0, 0)

/-- End of the match before match `j` of the scan (or the scan start 0). -/
def scanPrevEnd (s : List Char) (j : Nat) : Nat :=
  if j = 0 then 0 else ((scanMatches s).getD (j - 1) dM).2.2

theorem digits1_pos (l : List Char) (n : Nat) (r : List Char)
    (h : digits1 l = some (n, r)) : 0 < n := by
  rw [digits1] at h
  by_cases h0 : (countDigits l).1 = 0
  · rw [if_pos h0] at h; exact absurd h (by simp)
  · rw [if_neg h0] at h
    have : (countDigits l).1 = n := by
      have := Option.some.inj h
      exact congrArg Prod.fst this
    omega

theorem intTokLen_pos (l : List Char) (n : Nat) (r : List Char)
    (h : intTokLen l = some (n, r)) : 0 < n := by
  match l with
  | [] => exact absurd h (by simp [intTokLen])
  | c :: r2 =>
    rw [intTokLen] at h
    by_cases hc : c = '-'
    · rw [if_pos hc, Option.map_eq_some'] at h
      obtain ⟨⟨n2, r3⟩, _, heq⟩ := h
      have : n2 + 1 = n := congrArg Prod.fst heq
      omega
    · rw [if_neg hc] at h
      exact digits1_pos _ _ _ h

theorem rangeLen_pos (l : List Char) (n : Nat) (h : rangeLen l = some n) : 0 < n := by
  rw [rangeLen] at h
  rw [Option.bind_eq_some] at h
  obtain ⟨r1, _, h⟩ := h
  rw [Option.bind_eq_some] at h
  obtain ⟨p1, _, h⟩ := h
  rw [Option.bind_eq_some] at h
  obtain ⟨r2, _, h⟩ := h
  rw [Option.bind_eq_some] at h
  obtain ⟨p2, _, h⟩ := h
  match hcl : expectChar ']' p2.2 with
  | some r4 =>
    rw [hcl] at h
    have := Option.some.inj h
    omega
  | none =>
    rw [hcl] at h
    rw [Option.bind_eq_some] at h
    obtain ⟨r3, _, h⟩ := h
    rw [Option.bind_eq_some] at h
    obtain ⟨p3, _, h⟩ := h
    rw [Option.map_eq_some'] at h
    obtain ⟨_, _, heq⟩ := h
    omega

theorem enumLen_pos (l : List Char) (n : Nat) (h : enumLen l = some n) : 0 < n := by
  rw [enumLen] at h
  rw [Option.bind_eq_some] at h
  obtain ⟨r1, _, h⟩ := h
  rw [Option.map_eq_some'] at h
  obtain ⟨_, _, heq⟩ := h
  omega

theorem matchAt_lt (s : List Char) (i : Nat) (k : MKind) (e : Nat)
    (h : matchAt s i = some (k, e)) : i < e := by
  rw [matchAt] at h
  match hr : rangeMatchAt s i with
  | some e1 =>
    rw [hr] at h
    rw [rangeMatchAt, Option.map_eq_some'] at hr
    obtain ⟨n, hn, rfl⟩ := hr
    have := rangeLen_pos _ _ hn
    have he : e = i + n := by
      have := Option.some.inj h
      exact (congrArg Prod.snd this).symm
    omega
  | none =>
    rw [hr] at h
    match he2 : enumMatchAt s i with
    | some e1 =>
      rw [he2] at h
      rw [enumMatchAt, Option.map_eq_some'] at he2
      obtain ⟨n, hn, rfl⟩ := he2
      have := enumLen_pos _ _ hn
      have he : e = i + n := by
        have := Option.some.inj h
        exact (congrArg Prod.snd this).symm
      omega
    | none =>
      rw [he2] at h
      exact absurd h (by simp)

theorem scanF_inv (s : List Char) :
    ∀ fuel i, s.length - i ≤ fuel →
      (∀ j, j < (scanF s fuel i).length →
        i ≤ ((scanF s fuel i).getD j dM).2.1 ∧
        matchAt s ((scanF s fuel i).getD j dM).2.1 =
          some (((scanF s fuel i).getD j dM).1, ((scanF s fuel i).getD j dM).2.2)) ∧
      (∀ j, j + 1 < (scanF s fuel i).length →
        ((scanF s fuel i).getD j dM).2.2 ≤ ((scanF s fuel i).getD (j + 1) dM).2.1) ∧
      (∀ j, j < (scanF s fuel i).length → ∀ p,
        (if j = 0 then i else ((scanF s fuel i).getD (j - 1) dM).2.2) ≤ p →
        p < ((scanF s fuel i).getD j dM).2.1 → matchAt s p = none) := by
  intro fuel
  induction fuel with
  | zero =>
    intro i hf
    refine ⟨?_, ?_, ?_⟩ <;> intro j hj <;> simp [scanF] at hj
  | succ fuel ih =>
    intro i hf
    by_cases hi : i < s.length
    · match hm : matchAt s i with
      | none =>
        have hrec : scanF s (fuel + 1) i = scanF s fuel (i + 1) := by
          rw [scanF, if_pos hi, hm]
        rw [hrec]
        obtain ⟨ih1, ih2, ih3⟩ := ih (i + 1) (by omega)
        refine ⟨?_, ih2, ?_⟩
        · intro j hj
          obtain ⟨ha, hb⟩ := ih1 j hj
          exact ⟨by omega, hb⟩
        · intro j hj p hpl hpr
          match j with
          | 0 =>
            rcases Nat.eq_or_lt_of_le (by simpa using hpl : i ≤ p) with hep | hep
            · rw [← hep]; exact hm
            · exact ih3 0 hj p (by simpa using hep) hpr
          | j' + 1 =>
            exact ih3 (j' + 1) hj p (by simpa using hpl) hpr
      | some (k, e) =>
        have hlt : i < e := matchAt_lt s i k e hm
        have hmax : max e (i + 1) = e := by omega
        have hrec : scanF s (fuel + 1) i = (k, i, e) :: scanF s fuel e := by
          rw [scanF, if_pos hi, hm]
          show (k, i, e) :: scanF s fuel (max e (i + 1)) = (k, i, e) :: scanF s fuel e
          rw [hmax]
        rw [hrec]
        obtain ⟨ih1, ih2, ih3⟩ := ih e (by omega)
        refine ⟨?_, ?_, ?_⟩
        · intro j hj
          match j with
          | 0 => exact ⟨Nat.le_refl i, hm⟩
          | j' + 1 =>
            have hj' : j' < (scanF s fuel e).length := by simpa using hj
            obtain ⟨ha, hb⟩ := ih1 j' hj'
            simp only [List.getD_cons_succ]
            exact ⟨by omega, hb⟩
        · intro j hj
          match j with
          | 0 =>
            simp only [List.getD_cons_zero, List.getD_cons_succ]
            exact (ih1 0 (by simpa using hj)).1
          | j' + 1 =>
            simp only [List.getD_cons_succ]
            exact ih2 j' (by simpa using hj)
        · intro j hj p hpl hpr
          match j with
          | 0 =>
            simp only [List.getD_cons_zero] at hpr
            have : i ≤ p := by simpa using hpl
            omega
          | j' + 1 =>
            simp only [List.getD_cons_succ] at hpr
            refine ih3 j' (by simpa using hj) p ?_ hpr
            match j' with
            | 0 => simpa using hpl
            | j'' + 1 => simpa using hpl
    · have hrec : scanF s (fuel + 1) i = [] := by rw [scanF, if_neg hi]
      rw [hrec]
      refine ⟨?_, ?_, ?_⟩ <;> intro j hj <;> simp at hj

/-- C3: the two grammar variants are tried in a fixed order, Range before
Enumeration, so when both patterns would match at a position the combined
pattern yields a Range match; the scan is a single left-to-right pass in
which every recorded match starts at or after the end of the previous match
(no overlap with consumed text), no position strictly between the end of the
previous match and a match's start carries any match of the combined grammar
(leftmost match wins), and every recorded match is genuine. -/
theorem fold_grammar_precedence (s : List Char) :
    (∀ i e1 e2, rangeMatchAt s i = some e1 → enumMatchAt s i = some e2 →
      matchAt s i = some (MKind.range, e1)) ∧
    (∀ j, j + 1 < (scanMatches s).length →
      ((scanMatches s).getD j dM).2.2 ≤ ((scanMatches s).getD (j + 1) dM).2.1) ∧
    (∀ j, j < (scanMatches s).length → ∀ p, scanPrevEnd s j ≤ p →
      p < ((scanMatches s).getD j dM).2.1 → matchAt s p = none) ∧
    (∀ j, j < (scanMatches s).length →
      matchAt s ((scanMatches s).getD j dM).2.1 =
        some (((scanMatches s).getD j dM).1, ((scanMatches s).getD j dM).2.2)) := by
  obtain ⟨h1, h2, h3⟩ := scanF_inv s s.length 0 (by omega)
  simp only [scanMatches, scanPrevEnd]
  refine ⟨?_, h2, ?_, fun j hj => (h1 j hj).2⟩
  · intro i e1 e2 hr he
    rw [matchAt, hr]
  · intro j hj p hpl hpr
    refine h3 j hj p ?_ hpr
    match j with
    | 0 => simp
    | j' + 1 => simpa [scanMatches] using hpl

/-- Witness for C3 at "x[1:3]": at position 1 both the Range and the
Enumeration pattern match (both of length 5), and the combined pattern
reports a Range match. -/
theorem fold_grammar_precedence_witness :
    rangeMatchAt "x[1:3]".toList 1 = some 6 ∧
    enumMatchAt "x[1:3]".toList 1 = some 6 ∧
    matchAt "x[1:3]".toList 1 = some (MKind.range, 6) :=
  ⟨by decide, by decide,
    (fold_grammar_precedence "x[1:3]".toList).1 1 6 6 (by decide) (by decide)⟩

end SmartDispatch
